import Mathlib

/-!
Verification of the package dependency resolver (`conda/resolve.py`).

The Python source is shallowly embedded: strings are `List Char` (so that all
definitions compute by structural recursion and can be evaluated by `decide`),
Python dicts are ordered association lists, fallible code returns `Except`,
and the two external collaborators (the `VersionSpec` matcher of
`conda.version` and the SAT engine of `conda.logic`, neither of which is part
of the resolver module) are modelled from the spec as explicit oracle
parameters.
-/

namespace Conda

/-- Strings of the embedding: Python `str` as a list of characters. -/
abbrev Str := List Char

/-- Coerce a Lean string literal into the embedding's string type. -/
def str (s : String) : Str := s.data

/-- Python whitespace test used by `str.split()` / `str.strip()`. -/
def isWs (c : Char) : Bool := c = ' ' || c = '\t' || c = '\n' || c = '\r'

/-- Python `s.strip()`: drop leading and trailing whitespace. -/
def pyStrip (s : Str) : Str :=
  ((s.dropWhile isWs).reverse.dropWhile isWs).reverse

/-- Helper for `pySplitWs`: accumulate the current token (reversed) and the
finished tokens (reversed). -/
def pySplitWsGo (cur : Str) (acc : List Str) : Str → List Str
  | [] => if cur.isEmpty then acc.reverse else (cur.reverse :: acc).reverse
  | c :: cs =>
    if isWs c then
      if cur.isEmpty then pySplitWsGo [] acc cs
      else pySplitWsGo [] (cur.reverse :: acc) cs
    else pySplitWsGo (c :: cur) acc cs

/-- Python `s.split()` (no argument): split on whitespace runs, dropping
empty tokens. -/
def pySplitWs (s : Str) : List Str := pySplitWsGo [] [] s

/-- Split at the first occurrence of `c`: `some (before, after)`, the
separator excluded, or `none` when `c` does not occur.  This is Python's
`s.partition(c)` (which returns `(s, '', '')` when `c` is absent). -/
def splitAtFirst (c : Char) : Str → Option (Str × Str)
  | [] => none
  | x :: xs =>
    if x = c then some ([], xs)
    else
      match splitAtFirst c xs with
      | none => none
      | some (a, b) => some (x :: a, b)

/-- Split at the last occurrence of `c` (Python `s.rsplit(c, 1)`),
separator excluded. -/
def splitAtLast (c : Char) (s : Str) : Option (Str × Str) :=
  match splitAtFirst c s.reverse with
  | none => none
  | some (rb, ra) => some (ra.reverse, rb.reverse)

/-- Helper for `splitOnChar`. -/
def splitOnCharGo (c : Char) (cur : Str) : Str → List Str
  | [] => [cur.reverse]
  | x :: xs =>
    if x = c then cur.reverse :: splitOnCharGo c [] xs
    else splitOnCharGo c (x :: cur) xs

/-- Python `s.split(c)` for a single-character separator: keeps empty
pieces, and `''.split(c) = ['']`. -/
def splitOnChar (c : Char) (s : Str) : List Str := splitOnCharGo c [] s

/-- Ordered association list lookup (first match), the embedding of a
Python dict read `m.get(k)`. -/
def alookup {κ α : Type} [DecidableEq κ] : List (κ × α) → κ → Option α
  | [], _ => none
  | (k', v) :: r, k => if k' = k then some v else alookup r k

/-! ### MatchSpec (source lines 71-147) -/

/-- Embedding of `MatchSpec`: `spec` is the stripped constraint text,
`strictness` the number of whitespace tokens (1 = name only, 2 = name and
version predicate, 3 = name, version and build), `vspecs` the raw version
predicate text (meaningful at strictness 2; the compiled `VersionSpec` is an
external collaborator and is modelled by an oracle where it is consulted),
`ver_build` the exact pair at strictness 3. -/
structure MatchSpec where
  spec : Str
  name : Str
  strictness : Nat
  vspecs : Str
  ver_build : Str × Str
  target : Option Str
  optional : Bool
deriving DecidableEq, Repr

/-- Fallible part of `MatchSpec.__new__` for a string argument
(source lines 75-100): partition at `'('`, strip, split on whitespace into
1-3 parts, then process the parenthesised options `optional` /
`target=<fkey>`.  Every `raise` / failed `assert` of the source becomes
`Except.error ()`. -/
def msParseE (s : Str) (target0 : Option Str) (optional0 : Option Bool) :
    Except Unit MatchSpec :=
  let (body, oparts) :=
    match splitAtFirst '(' s with
    | none => (s, ([] : Str))
    | some (a, b) => (a, b)
  let specT := pyStrip body
  if oparts ≠ [] ∧ (pyStrip oparts).getLast? ≠ some ')' then .error ()
  else
    let parts := pySplitWs body
    let strictness := parts.length
    if 1 ≤ strictness ∧ strictness ≤ 3 then
      match parts with
      | [] => .error ()
      | p0 :: rest =>
        let name := p0
        let vspecs := if strictness = 2 then rest.headD [] else []
        let ver_build :=
          if strictness = 3 then (rest.headD [], (rest.drop 1).headD [])
          else (([] : Str), ([] : Str))
        let step : Except Unit (Option Str × Option Bool) → Str →
            Except Unit (Option Str × Option Bool) := fun st opart =>
          match st with
          | .error e => .error e
          | .ok (tgt, opt) =>
            if opart = str "optional" then .ok (tgt, some true)
            else if (str "target=").isPrefixOf opart then
              .ok (some (pyStrip ((splitOnChar '=' opart).drop 1 |>.headD [])), opt)
            else .error ()
        let opts :=
          if oparts ≠ [] then
            (splitOnChar ',' (pyStrip oparts).dropLast).foldl step
              (.ok (target0, optional0))
          else .ok (target0, optional0)
        match opts with
        | .error e => .error e
        | .ok (tgt, opt) =>
          .ok { spec := specT, name := name, strictness := strictness,
                vspecs := vspecs, ver_build := ver_build,
                target := tgt, optional := opt.getD false }
    else .error ()

/-- Total wrapper around `msParseE`: on the inputs where the Python
constructor raises, a designated junk value (strictness 0, which no real
construction produces) is returned instead. -/
def msParse (s : Str) : MatchSpec :=
  match msParseE s none none with
  | .ok m => m
  | .error _ =>
    { spec := pyStrip s, name := [], strictness := 0, vspecs := [],
      ver_build := ([], []), target := none, optional := false }

/-- The argument of `MatchSpec.__new__`: either an existing `MatchSpec`
(returned unchanged) or a string to parse. -/
inductive SpecArg where
  | fromMs (m : MatchSpec)
  | fromStr (s : Str)

/-- `MatchSpec.__new__(cls, spec, target, optional)` (source lines 72-100):
an existing `MatchSpec` is returned as-is, a string is parsed. -/
def matchSpecNew : SpecArg → Option Str → Option Bool → Except Unit MatchSpec
  | .fromMs m, _, _ => .ok m
  | .fromStr s, t, o => msParseE s t o

/-- `MatchSpec.match_fast(version, build)` (source lines 102-108); `vm` is
the oracle for the external `VersionSpec(text).match(version)`. -/
def match_fast (vm : Str → Str → Bool) (ms : MatchSpec)
    (version build : Str) : Bool :=
  if ms.strictness = 1 then true
  else if ms.strictness = 2 then vm ms.vspecs version
  else decide ((version, build) = ms.ver_build)

/-- `MatchSpec.match(info)` for a metadata record (source lines 110-119):
false when the names differ, otherwise `match_fast`. -/
def msMatchTriple (vm : Str → Str → Bool) (ms : MatchSpec)
    (name version build : Str) : Bool :=
  if name ≠ ms.name then false
  else match_fast vm ms version build

/-- `MatchSpec.to_filename` (source lines 121-125). -/
def to_filename (ms : MatchSpec) : Option Str :=
  if ms.strictness = 3 ∧ ms.optional = false then
    some (ms.name ++ ('-' :: ms.ver_build.1) ++ ('-' :: ms.ver_build.2)
          ++ str ".tar.bz2")
  else none

/-- `MatchSpec.__eq__` (source lines 127-130): the tuple
`(spec, optional, target)`. -/
def msBeq (a b : MatchSpec) : Bool :=
  decide ((a.spec, a.optional, a.target) = (b.spec, b.optional, b.target))

/-- `MatchSpec.__hash__` (source lines 132-133): the hash of the spec text
alone. -/
def msHash (a : MatchSpec) : UInt64 := hash a.spec

/-- `MatchSpec.__str__` (source lines 138-147). -/
def msStr (ms : MatchSpec) : Str :=
  if ms.optional = true ∨ ms.target.isSome then
    let args :=
      (if ms.optional then [str "optional"] else []) ++
      (match ms.target with
       | some t => [str "target=" ++ t]
       | none => [])
    ms.spec ++ str " (" ++ (List.intercalate (str ",") args) ++ str ")"
  else ms.spec

/-! ### Generic ordering helpers

Python compares tuples and strings lexicographically; `lexLt` is the
boolean lexicographic strict order on lists over a linearly ordered
element type. -/

/-- Lexicographic strict order on lists (Python list/string `<`). -/
def lexLt {α : Type} [LinearOrder α] : List α → List α → Bool
  | [], [] => false
  | [], _ :: _ => true
  | _ :: _, [] => false
  | a :: as, b :: bs => decide (a < b) || (decide (a = b) && lexLt as bs)

/-- `a` may come before `b` in an ascending string sort. -/
def strLe (a b : Str) : Bool := !(lexLt b a)

/-- Insert into a sorted list (ascending with respect to `le`). -/
def insertLe {α : Type} (le : α → α → Bool) (a : α) : List α → List α
  | [] => [a]
  | b :: bs => if le a b then a :: b :: bs else b :: insertLe le a bs

/-- Insertion sort, the embedding of Python `list.sort()` (only the
resulting order matters to the theorems below). -/
def isortLe {α : Type} (le : α → α → Bool) : List α → List α
  | [] => []
  | a :: as => insertLe le a (isortLe le as)

/-- Boolean test that adjacent elements of a list are `le`-ordered. -/
def sortedB {α : Type} (le : α → α → Bool) : List α → Bool
  | [] => true
  | [_] => true
  | a :: b :: r => le a b && sortedB le (b :: r)

/-! ### Index records and the Resolve constructor (source lines 150-233) -/

/-- A metadata record of the index.  `depends` and the values of
`with_features_depends` are unparsed spec strings, `features` and
`track_features` are space-separated tag strings, exactly as in the JSON
index. -/
structure Rec where
  name : Str
  version : Str
  build : Str
  build_number : Int
  depends : List Str
  features : Str
  track_features : Str
  with_features_depends : List (Str × List Str)
  priority : Int
deriving DecidableEq, Repr

/-- The index: an insertion-ordered mapping from fkey to record
(a Python dict). -/
abbrev Index := List (Str × Rec)

/-- Append `v` to the list stored at `k`, creating the entry if absent
(`m.setdefault(k, []).append(v)`). -/
def aappend (m : List (Str × List Str)) (k : Str) (v : Str) :
    List (Str × List Str) :=
  match alookup m k with
  | some _ => m.map (fun p => if p.1 = k then (p.1, p.2 ++ [v]) else p)
  | none => m ++ [(k, [v])]

/-- Set `k` to `v`, replacing in place or appending (`m[k] = v` on a
Python dict). -/
def aset {α : Type} (m : List (Str × α)) (k : Str) (v : α) : List (Str × α) :=
  match alookup m k with
  | some _ => m.map (fun p => if p.1 = k then (k, v) else p)
  | none => m ++ [(k, v)]

/-- `Resolve.__init__` preprocessing (source lines 209-212): for every
record carrying `with_features_depends`, a virtual fkey `fkey[fstr]`
sharing the same record is appended to the index. -/
def processIndex (index : Index) : Index :=
  index ++ index.flatMap (fun kv =>
    kv.2.with_features_depends.map (fun w => (kv.1 ++ '[' :: w.1 ++ [']'], kv.2)))

/-- `groups`: name → fkeys of that name, in index order
(source lines 214-218). -/
def groupsOf (idx : Index) : List (Str × List Str) :=
  idx.foldl (fun g kv => aappend g kv.2.name kv.1) []

/-- `trackers`: feature tag → fkeys whose `track_features` carry it
(source lines 219-220). -/
def trackersOf (idx : Index) : List (Str × List Str) :=
  idx.foldl (fun t kv =>
    (pySplitWs kv.2.track_features).foldl (fun t f => aappend t f kv.1) t) []

/-- The external collaborators, modelled from the spec: `vm` is
`VersionSpec(text).match(version)`; `nver` is `normalized_version`,
producing totally ordered values (modelled as `List Nat`); `cp` is the
`config.channel_priority` flag. -/
structure Ctx where
  vm : Str → Str → Bool
  nver : Str → List Nat
  cp : Bool

/-- `Resolve.version_key` as a strict comparison between two fkeys
(source lines 550-555): keys are `(-priority, version, build_number)` under
channel priority and `(version, -priority, build_number)` otherwise. -/
def vkeyLt (ctx : Ctx) (idx : Index) (k1 k2 : Str) : Bool :=
  let key : Str → Int × List Nat × Int := fun k =>
    match alookup idx k with
    | some r => (-r.priority, ctx.nver r.version, r.build_number)
    | none => (0, [], 0)
  let c1 := (key k1).1; let v1 := (key k1).2.1; let b1 := (key k1).2.2
  let c2 := (key k2).1; let v2 := (key k2).2.1; let b2 := (key k2).2.2
  if ctx.cp then
    decide (c1 < c2) ||
      (decide (c1 = c2) && (lexLt v1 v2 || (decide (v1 = v2) && decide (b1 < b2))))
  else
    lexLt v1 v2 ||
      (decide (v1 = v2) && (decide (c1 < c2) || (decide (c1 = c2) && decide (b1 < b2))))

/-- The read-only view held by a `Resolve` instance: the (possibly
feature-extended) index and the two reverse mappings. -/
structure Resolve where
  index : Index
  groups : List (Str × List Str)
  trackers : List (Str × List Str)

/-- `Resolve(index, sort, processed)` (source lines 208-233): extend the
index with feature-activation virtual fkeys unless already processed,
build `groups` and `trackers`, and sort each group by descending
`version_key` when requested. -/
def mkResolve (ctx : Ctx) (index : Index) (sort processed : Bool) : Resolve :=
  let idx := if processed then index else processIndex index
  let gs := groupsOf idx
  let gs :=
    if sort then
      gs.map (fun g => (g.1, isortLe (fun a b => !(vkeyLt ctx idx a b)) g.2))
    else gs
  { index := idx, groups := gs, trackers := trackersOf idx }

/-- `Resolve.features(fkey)` (source lines 557-558). -/
def featuresOf (idx : Index) (fkey : Str) : List Str :=
  match alookup idx fkey with
  | some r => pySplitWs r.features
  | none => []

/-- `Resolve.find_matches(ms)` (source lines 521-531, memoization
dropped): tracker fkeys for an `@feat` spec, otherwise the fkeys of the
name group passing `match_fast`. -/
def find_matches (ctx : Ctx) (R : Resolve) (ms : MatchSpec) : List Str :=
  if ms.name.head? = some '@' then
    (alookup R.trackers (ms.name.drop 1)).getD []
  else
    ((alookup R.groups ms.name).getD []).filter (fun p =>
      match alookup R.index p with
      | some r => match_fast ctx.vm ms r.version r.build
      | none => false)

/-- `Resolve.ms_depends(fkey)` (source lines 533-548, memoization
dropped), with explicit fuel for the recursion into the base fkey of a
`[fstr]` suffix.  For a suffixed fkey the base dependencies are merged by
name into a dict which the activation entries override; a synthetic
`@feat` spec is appended for every `features` tag. -/
def ms_dependsF (idx : Index) : Nat → Str → List MatchSpec
  | 0, _ => []
  | fu + 1, fkey =>
    match alookup idx fkey with
    | none => []
    | some rc =>
      let deps :=
        if fkey.getLast? = some ']' then
          match splitAtLast '[' fkey with
          | some (f2, fstrBr) =>
            let fstr := fstrBr.dropLast
            let base := ms_dependsF idx fu f2
            let fdeps := base.foldl (fun m d => aset m d.name d) []
            let fdeps2 := ((alookup rc.with_features_depends fstr).getD []).foldl
              (fun m s => let d := msParse s; aset m d.name d) fdeps
            fdeps2.map (fun p => p.2)
          | none => rc.depends.map msParse
        else rc.depends.map msParse
      deps ++ (pySplitWs rc.features).map (fun f => msParse ('@' :: f))

/-- `Resolve.package_triple(fkey)` (source lines 563-570): the record's
`(name, version, build)`, or a best-effort parse of the filename when the
fkey is not in the index. -/
def package_triple (idx : Index) (fkey : Str) : Str × Str × Str :=
  match alookup idx fkey with
  | some r => (r.name, r.version, r.build)
  | none =>
    let k1 := match splitAtLast '[' fkey with
      | some (a, _) => a
      | none => fkey
    let k2 := match splitAtLast '/' k1 with
      | some (_, b) => b
      | none => k1
    let k3 := if (str ".tar.bz2").isSuffixOf k2 then k2.take (k2.length - 8) else k2
    match splitAtLast '-' k3 with
    | none => (k3, [], [])
    | some (a, b) =>
      match splitAtLast '-' a with
      | none => (a, b, [])
      | some (a2, m) => (a2, m, b)

/-- `Resolve.package_name(fkey)` (source lines 572-573). -/
def package_name (idx : Index) (fkey : Str) : Str := (package_triple idx fkey).1

/-! ### Package (source lines 150-204) -/

/-- The sortable facade over an index record.  `norm_version` is the
externally parsed `normalized_version(version)`. -/
structure Package where
  fn : Str
  name : Str
  version : Str
  build : Str
  build_number : Int
  norm_version : List Nat
deriving DecidableEq, Repr

/-- `Package(fn, info)` (source lines 155-171, channel fields dropped):
`norm_version` comes from the external parser oracle. -/
def mkPackage (nver : Str → List Nat) (fn : Str) (info : Rec) : Package :=
  { fn := fn, name := info.name, version := info.version, build := info.build,
    build_number := info.build_number, norm_version := nver info.version }

/-- The tuple comparison
`(norm_version, build_number, build) < (other.norm_version, ...)` of
`Package.__lt__` (source lines 183-184). -/
def pkgKeyLt (a b : Package) : Bool :=
  lexLt a.norm_version b.norm_version ||
    (decide (a.norm_version = b.norm_version) &&
      (decide (a.build_number < b.build_number) ||
        (decide (a.build_number = b.build_number) && lexLt a.build b.build)))

/-- `Package.__lt__` (source lines 179-184): a `TypeError` for different
names, otherwise the tuple comparison. -/
def pkgLt (a b : Package) : Except Unit Bool :=
  if a.name ≠ b.name then .error () else .ok (pkgKeyLt a b)

/-- `Package.__gt__` (source lines 197-198): `other < self`. -/
def pkgGt (a b : Package) : Except Unit Bool := pkgLt b a

/-- `Package.__le__` (source lines 200-201): `not (other < self)`. -/
def pkgLe (a b : Package) : Except Unit Bool := (pkgLt b a).map (fun r => !r)

/-- `Package.__ge__` (source lines 203-204): `not (self < other)`. -/
def pkgGe (a b : Package) : Except Unit Bool := (pkgLt a b).map (fun r => !r)

/-! ### The validity fixpoint (source lines 235-261) -/

/-- The memoization dictionary `filter : fkey → bool` of `Resolve.valid`. -/
abbrev Filter := List (Str × Bool)

/-- Short-circuiting `any` over a list, threading a state (the evaluation
of Python's `any(gen)` where the generator mutates `filter`). -/
def anyFoldB {σ β : Type} (g : σ → β → Bool × σ) : σ → List β → Bool × σ
  | s, [] => (false, s)
  | s, b :: bs =>
    match g s b with
    | (true, s1) => (true, s1)
    | (false, s1) => anyFoldB g s1 bs

/-- Short-circuiting `all` over a list, threading a state. -/
def allFoldB {σ β : Type} (g : σ → β → Bool × σ) : σ → List β → Bool × σ
  | s, [] => (true, s)
  | s, b :: bs =>
    match g s b with
    | (false, s1) => (false, s1)
    | (true, s1) => allFoldB g s1 bs

/-- The mutually recursive pair `(v_ms_, v_fkey_)` of `Resolve.valid`
(source lines 251-259), built level by level on a fuel parameter (the
Python recursion terminates because `filter` grows; the fuel bounds the
nesting depth and any sufficiently large value reproduces the Python
run).  `v_fkey_` first returns a memoized value if present; otherwise it
provisionally stores `true`, evaluates the dependencies, and stores the
result. -/
def vFuns (ctx : Ctx) (R : Resolve) (mfuel : Nat) :
    Nat → (Filter → MatchSpec → Bool × Filter) × (Filter → Str → Bool × Filter)
  | 0 => (fun f _ => (false, f), fun f _ => (false, f))
  | n + 1 =>
    let p := vFuns ctx R mfuel n
    (fun f ms =>
      if ms.optional = true then (true, f)
      else anyFoldB p.2 f (find_matches ctx R ms),
     fun f k =>
      match alookup f k with
      | some v => (v, f)
      | none =>
        let f1 := aset f k true
        let q := allFoldB p.1 f1 (ms_dependsF R.index mfuel k)
        (q.1, aset q.2 k q.1))

/-- `v_ms_(ms)` at a given fuel level. -/
def v_ms (ctx : Ctx) (R : Resolve) (mfuel n : Nat) :
    Filter → MatchSpec → Bool × Filter :=
  (vFuns ctx R mfuel n).1

/-- `v_fkey_(fkey)` at a given fuel level. -/
def v_fkey (ctx : Ctx) (R : Resolve) (mfuel n : Nat) :
    Filter → Str → Bool × Filter :=
  (vFuns ctx R mfuel n).2

/-- `Resolve.valid(spec, filter)` (source line 261): dispatch on whether
the argument is a `MatchSpec` or an fkey. -/
def valid (ctx : Ctx) (R : Resolve) (mfuel n : Nat) (f : Filter) :
    MatchSpec ⊕ Str → Bool × Filter
  | .inl ms => v_ms ctx R mfuel n f ms
  | .inr k => v_fkey ctx R mfuel n f k

/-! ### Clause generation (source lines 582-626)

The `Clauses` SAT engine lives in `conda.logic`, outside this module; its
constraint vocabulary is modelled from the spec.  `Require(AtMostOne,
group)` demands that at most one fkey of the group is selected;
`Require(Or, Not(fkey), push_MatchSpec(ms))` demands that a selected fkey
has some selected match for each mandatory dependency (for a non-optional
spec, `push_MatchSpec` builds exactly the disjunction of the fkeys
returned by `find_matches`, source lines 588-599). -/

/-- The constraints emitted by `Resolve.gen_clauses`. -/
inductive SClause where
  | atMostOne (group : List Str)
  | dep (fkey : Str) (ms : MatchSpec)

/-- `Resolve.gen_clauses` (source lines 605-626): one at-most-one
constraint per name group, then one implication clause per (fkey,
non-optional dependency) pair. -/
def gen_clauses (R : Resolve) (mfuel : Nat) : List SClause :=
  R.groups.map (fun g => SClause.atMostOne g.2) ++
  R.groups.flatMap (fun g => g.2.flatMap (fun fkey =>
    ((ms_dependsF R.index mfuel fkey).filter (fun ms => !ms.optional)).map
      (fun ms => SClause.dep fkey ms)))

/-- Modelled from the spec: satisfaction of an emitted constraint by a
truth assignment over fkey variables (`sat(constraints)` of the external
`Clauses` engine returns only models satisfying every constraint). -/
def satClause (ctx : Ctx) (R : Resolve) (m : Str → Bool) : SClause → Prop
  | .atMostOne g => g.countP m ≤ 1
  | .dep k ms => m k = true → ∃ f ∈ find_matches ctx R ms, m f = true

instance (ctx : Ctx) (R : Resolve) (m : Str → Bool) (c : SClause) :
    Decidable (satClause ctx R m c) :=
  match c with
  | .atMostOne g => inferInstanceAs (Decidable (List.countP m g ≤ 1))
  | .dep k ms =>
    inferInstanceAs (Decidable (m k = true → ∃ f ∈ find_matches ctx R ms, m f = true))

/-- The `stripfeat` cleanup of `Resolve.solve` (source lines 977-978):
`sol.split('[')[0]`. -/
def stripfeat (sol : Str) : Str :=
  match splitAtFirst '[' sol with
  | none => sol
  | some (a, _) => a

/-! ### explicit (source lines 703-731) -/

/-- The specs whose filenames make up a non-`None` result of
`Resolve.explicit`: the single spec in the one-spec case, otherwise every
spec whose string form is not `conda`. -/
def contributing (specs : List MatchSpec) : List MatchSpec :=
  match specs with
  | [ms] => [ms]
  | _ => specs.filter (fun s => decide (msStr s ≠ str "conda"))

/-- `Resolve.explicit(specs)` (source lines 703-731): for a single
strictness-3 spec whose filename is in the index, the filenames of its
dependencies plus its own; for several specs, their filenames (ignoring a
literal `conda`); `none` whenever any needed filename is unavailable.
The result list is sorted. -/
def explicit (R : Resolve) (mfuel : Nat) (specs : List MatchSpec) :
    Option (List Str) :=
  match specs with
  | [ms] =>
    match to_filename ms with
    | none => none
    | some fn =>
      if (alookup R.index fn).isNone then none
      else
        let res := (ms_dependsF R.index mfuel fn).map to_filename ++ [some fn]
        if none ∈ res then none
        else some (isortLe strLe (res.filterMap id))
  | _ =>
    let res := (specs.filter (fun s => decide (msStr s ≠ str "conda"))).map to_filename
    if none ∈ res then none
    else some (isortLe strLe (res.filterMap id))

/-! ### bad_installed (source lines 759-803) -/

/-- Python exception classes relevant to the `except TypeError` handler of
`bad_installed`: a `TypeError`, or an exception of any other class. -/
inductive PyErr where
  | typeError
  | otherError
deriving DecidableEq, Repr

/-- Python truthiness of the SAT result: `None` and the empty model are
falsy. -/
def solTruthy : Option (List Nat) → Bool
  | none => false
  | some l => !l.isEmpty

/-- The recursive closure `get_(name, snames)` of `bad_installed` (source
lines 785-790): names reachable through dependencies, accumulated into
`snames`. -/
def getNames (R : Resolve) (mfuel : Nat) : Nat → Str → List Str → List Str
  | 0, _, snames => snames
  | gfu + 1, name, snames =>
    if name ∈ snames then snames
    else
      let sn1 := snames ++ [name]
      ((alookup R.groups name).getD []).foldl
        (fun sn fn => (ms_dependsF R.index mfuel fn).foldl
          (fun sn ms => getNames R mfuel gfu ms.name sn) sn) sn1

/-- The tail of `bad_installed` after the SAT consistency check (source
lines 783-803): compute the solver name limit and the fkeys to preserve. -/
def badFinish (R : Resolve) (mfuel gfuel : Nat) (installed : List Str)
    (new_specs : List MatchSpec) (xtra : List Str) (specs : List MatchSpec)
    (solution : Option (List Nat)) : Option (List Str) × List Str :=
  if !solTruthy solution || !xtra.isEmpty then
    let snames := new_specs.foldl (fun sn s => getNames R mfuel gfuel s.name sn) []
    let xtra2 := xtra.filter (fun x => decide (x ∉ snames))
    if !xtra2.isEmpty ||
        !(solTruthy solution || specs.all (fun s => decide (s.name ∈ snames))) then
      let limit := ((specs.filter (fun s => decide (s.name ∈ snames))).map
        (fun s => s.name)).dedup
      let xtra3 := installed.filter (fun fn =>
        decide (package_name R.index fn ∉ snames))
      (some limit, xtra3)
    else (none, xtra2)
  else (none, xtra)

/-- `Resolve.bad_installed(installed, new_specs)` (source lines 759-803).
The external SAT engine is the oracle `sat`; per the source, a `TypeError`
raised by it is caught and treated as `solution = None`, while the
`match` propagates any other exception class. -/
def bad_installed (ctx : Ctx) (R : Resolve) (mfuel gfuel : Nat)
    (installed : List Str) (new_specs : List MatchSpec)
    (sat : List SClause × List MatchSpec → Except PyErr (Option (List Nat))) :
    Except PyErr (Option (List Str) × List Str) :=
  if installed = [] then .ok (none, [])
  else
    let xtra := installed.filter (fun fn => (alookup R.index fn).isNone)
    let dists := installed.filterMap (fun fn =>
      (alookup R.index fn).map (fun r => (fn, r)))
    let specs := dists.map (fun kv =>
      let t := package_triple R.index kv.1
      msParse (t.1 ++ ' ' :: t.2.1 ++ ' ' :: t.2.2))
    let r2 := mkResolve ctx dists true true
    match sat (gen_clauses r2 mfuel, specs) with
    | .error PyErr.typeError =>
      .ok (badFinish R mfuel gfuel installed new_specs xtra specs none)
    | .error e => .error e
    | .ok sol =>
      .ok (badFinish R mfuel gfuel installed new_specs xtra specs sol)

/-! ### Alternate-solution enumeration (source lines 946-975) -/

/-- The `clean` helper of `Resolve.solve` (source lines 946-948): keep
the selected names that are non-empty, not `!`-prefixed and free of `@`.
(`C.from_index` of the external engine maps model literals to names; the
model is represented by its name list directly.) -/
def cleanSol (sol : List Str) : List Str :=
  sol.filter (fun q =>
    !q.isEmpty && decide (q.head? ≠ some '!') && !(q.contains '@'))

/-- The `while True` alternate-solution loop of `Resolve.solve` (source
lines 954-964).  `sat psol` models `C.sat((nclause,), True)` where
`nclause` blocks the previous cleaned solution `psol`; `none` is UNSAT.
The loop breaks on UNSAT, or as soon as the incremented solution count
exceeds 10 (discarding the solution just found); otherwise it appends the
cleaned solution.  The fuel of 10 supplied by `solveAlts` is never
exhausted because `nsol` grows by one per iteration. -/
def altLoop (sat : List Str → Option (List Str)) :
    Nat → List Str → List (List Str) → Nat → Nat × List (List Str)
  | 0, _, acc, nsol => (nsol, acc)
  | fu + 1, psol, acc, nsol =>
    match sat psol with
    | none => (nsol, acc)
    | some sol =>
      let nsol1 := nsol + 1
      if 10 < nsol1 then (nsol1, acc)
      else
        let p := cleanSol sol
        altLoop sat fu p (acc ++ [p]) nsol1

/-- The enumeration as started by `solve` (source lines 949-953): the
cascade's final solution is cleaned and seeds `psolutions`, `nsol = 1`. -/
def solveAlts (sat : List Str → Option (List Str)) (solution : List Str) :
    Nat × List (List Str) :=
  let p0 := cleanSol solution
  altLoop sat 10 p0 [p0] 1

/-- The warning block of `solve` (source lines 966-975): when more than
one solution was found, the per-solution differences from the common
intersection, each sorted; otherwise no warning. -/
def altReport (nsol : Nat) (psolutions : List (List Str)) :
    Option (List (List Str)) :=
  if 1 < nsol then
    let psols2 := psolutions.map List.dedup
    let common :=
      match psols2 with
      | [] => []
      | h :: t => t.foldl (fun c s => c.filter (fun x => decide (x ∈ s))) h
    some (psols2.map (fun s => isortLe strLe (s.filter (fun x => decide (x ∉ common)))))
  else none

/-! ### Auxiliary definitions used by the proofs -/

/-- The synthetic `@feat` dependency specs appended by `ms_depends` for
the `features` tags of a record. -/
def featSpecsOf (rc : Rec) : List MatchSpec :=
  (pySplitWs rc.features).map (fun f => msParse ('@' :: f))

/-- The keys of an association list. -/
def keysOf {κ α : Type} (m : List (κ × α)) : List κ := m.map Prod.fst

/-- Fold a list of parsed dependencies into a name-keyed dict
(`{d.name: d for d in deps}` built by successive assignment). -/
def dictInsert (m : List (Str × MatchSpec)) (ds : List MatchSpec) :
    List (Str × MatchSpec) :=
  ds.foldl (fun m d => aset m d.name d) m

/-- The last element of `ds` whose name is `k` (the value a Python dict
comprehension keyed by name would retain). -/
def lastWith (ds : List MatchSpec) (k : Str) : Option MatchSpec :=
  ds.reverse.find? (fun d => decide (d.name = k))

/-! ### Concrete fixtures for witnesses and counterexamples -/

/-- Build a record fixture from Lean string literals. -/
def mkRec (n v b : String) (deps : List String) (feats tf : String)
    (wfd : List (Str × List Str)) : Rec :=
  { name := str n
    version := str v
    build := str b
    build_number := 0
    depends := deps.map str
    features := str feats
    track_features := str tf
    with_features_depends := wfd
    priority := 1 }

/-- Trivial external oracles for concrete evaluations. -/
def ctx0 : Ctx := { vm := fun _ _ => true, nver := fun _ => [], cp := false }

/-- Record of `package1`, which depends on `package2`. -/
def rec1 : Rec := mkRec "package1" "1.0" "0" ["package2"] "" "" []

/-- Record of `package2`, which depends on `package1`. -/
def rec2 : Rec := mkRec "package2" "1.0" "0" ["package1"] "" "" []

/-- A two-package index whose dependency graph is a pure cycle. -/
def cycIdx : Index :=
  [(str "package1-1.0-0.tar.bz2", rec1), (str "package2-1.0-0.tar.bz2", rec2)]

/-- The resolver over the cyclic index. -/
def cycR : Resolve := mkResolve ctx0 cycIdx false false

/-- A record with a feature variant: depends on `python 2.7*`, provides
feature `mkl`, and `with_features_depends['mkl']` adds `mkl-rt` and
overrides the `python` dependency. -/
def recN : Rec := mkRec "numpy" "1.7.1" "py27_0" ["python 2.7*"] "mkl" ""
  [(str "mkl", [str "mkl-rt", str "python 2.7*"])]

/-- The feature-extended index of `recN` (one real and one virtual fkey). -/
def fIdx : Index := processIndex [(str "numpy-1.7.1-py27_0.tar.bz2", recN)]

/-- Record of `b`, no dependencies. -/
def recB : Rec := mkRec "b" "2.0" "0" [] "" "" []

/-- Record of `a`, which depends exactly on `b 2.0 0`. -/
def recA : Rec := mkRec "a" "1.0" "0" ["b 2.0 0"] "" "" []

/-- A two-package index with a single strictness-3 dependency edge. -/
def eIdx : Index := [(str "a-1.0-0.tar.bz2", recA), (str "b-2.0-0.tar.bz2", recB)]

/-- The resolver over `eIdx`. -/
def eR : Resolve := mkResolve ctx0 eIdx false false

/-- A digit-wise version parser oracle for `Package` fixtures. -/
def nver1 (s : Str) : List Nat := s.map Char.toNat

/-- Package `n` version 1.0. -/
def pA1 : Package := mkPackage nver1 (str "n-1.0-0.tar.bz2") (mkRec "n" "1.0" "0" [] "" "" [])

/-- Package `n` version 2.0. -/
def pA2 : Package := mkPackage nver1 (str "n-2.0-0.tar.bz2") (mkRec "n" "2.0" "0" [] "" "" [])

/-- Package `m` (a different name). -/
def pB : Package := mkPackage nver1 (str "m-1.0-0.tar.bz2") (mkRec "m" "1.0" "0" [] "" "" [])

/-! ## Theorems -/

/-- Claim C10: constructing a `MatchSpec` from an existing `MatchSpec` is
the identity: `MatchSpec(ms, target, optional)` returns `ms` unchanged,
silently discarding the supplied `target` and `optional` arguments
(`matchSpecNew` on a `fromMs` argument ignores both). -/
theorem c10_matchspec_of_matchspec_is_identity
    (m : MatchSpec) (t : Option Str) (o : Option Bool) :
    matchSpecNew (SpecArg.fromMs m) t o = Except.ok m := rfl

/-- Claim C3: `match` returns true iff the names are equal and, at
strictness 1 unconditionally, at strictness 2 when the version predicate
(oracle `vm`) matches the version, and at strictness 3 when
`(version, build)` equals the spec's exact `ver_build` pair. -/
theorem c3_match_characterization (vm : Str → Str → Bool) (ms : MatchSpec)
    (n v b : Str) (h1 : 1 ≤ ms.strictness) (h3 : ms.strictness ≤ 3) :
    (msMatchTriple vm ms n v b = true ↔
      (n = ms.name ∧
        (ms.strictness = 1 ∨
         (ms.strictness = 2 ∧ vm ms.vspecs v = true) ∨
         (ms.strictness = 3 ∧ (v, b) = ms.ver_build)))) := by
  have hs : ms.strictness = 1 ∨ ms.strictness = 2 ∨ ms.strictness = 3 := by omega
  unfold msMatchTriple match_fast
  by_cases hn : n = ms.name
  · rcases hs with hs | hs | hs <;> simp [hn, hs]
  · simp [hn]

/-- Witness for C3 at a concrete strictness-2 spec. -/
theorem c3_match_characterization_witness :
    (msMatchTriple (fun _ _ => true) (msParse (str "numpy 1.7*"))
        (str "numpy") (str "1.7") (str "0") = true ↔
      (str "numpy" = (msParse (str "numpy 1.7*")).name ∧
        ((msParse (str "numpy 1.7*")).strictness = 1 ∨
         ((msParse (str "numpy 1.7*")).strictness = 2 ∧
           (fun (_ _ : Str) => true) (msParse (str "numpy 1.7*")).vspecs (str "1.7") = true) ∨
         ((msParse (str "numpy 1.7*")).strictness = 3 ∧
           (str "1.7", str "0") = (msParse (str "numpy 1.7*")).ver_build)))) :=
  c3_match_characterization (fun _ _ => true) (msParse (str "numpy 1.7*"))
    (str "numpy") (str "1.7") (str "0") (by decide) (by decide)

/-- Claim C5: two `MatchSpec`s are equal iff their `(spec, optional,
target)` tuples are equal, while the hash depends only on the spec text;
consequently the concrete pair `numpy` / `numpy (optional)`, which
differs only in `optional`, hashes identically but compares unequal. -/
theorem c5_eq_hash_asymmetry (a b : MatchSpec) :
    (msBeq a b = true ↔
      (a.spec, a.optional, a.target) = (b.spec, b.optional, b.target)) ∧
    (a.spec = b.spec → msHash a = msHash b) ∧
    (msHash (msParse (str "numpy")) = msHash (msParse (str "numpy (optional)")) ∧
      msBeq (msParse (str "numpy")) (msParse (str "numpy (optional)")) = false) := by
  refine ⟨by simp [msBeq], fun h => ?_, ?_, by decide⟩
  · unfold msHash
    rw [h]
  · have hspec : (msParse (str "numpy")).spec = (msParse (str "numpy (optional)")).spec := by
      decide
    unfold msHash
    rw [hspec]

/-- Witness for C5: the hash congruence applied to the concrete
optional/mandatory pair. -/
theorem c5_eq_hash_asymmetry_witness :
    msHash (msParse (str "numpy")) = msHash (msParse (str "numpy (optional)")) :=
  (c5_eq_hash_asymmetry (msParse (str "numpy")) (msParse (str "numpy (optional)"))).2.1
    (by decide)

/-- Claim C2: `valid` computes the memoized fixpoint predicate:
`v_ms_(ms)` is true iff `ms.optional` or some fkey of
`find_matches(ms)` is valid (short-circuit threading of the memo),
`v_fkey_(fkey)` returns the memoized value when present and otherwise
provisionally stores `true` before evaluating `ms_depends(fkey)`, and a
pure dependency cycle (the `package1 ↔ package2` index) evaluates to
true. -/
theorem c2_valid_fixpoint :
    (∀ (ctx : Ctx) (R : Resolve) (mfuel n : Nat) (f : Filter) (ms : MatchSpec),
      v_ms ctx R mfuel (n + 1) f ms =
        if ms.optional = true then (true, f)
        else anyFoldB (v_fkey ctx R mfuel n) f (find_matches ctx R ms)) ∧
    (∀ (ctx : Ctx) (R : Resolve) (mfuel n : Nat) (f : Filter) (k : Str),
      v_fkey ctx R mfuel (n + 1) f k =
        match alookup f k with
        | some v => (v, f)
        | none =>
          let f1 := aset f k true
          let q := allFoldB (v_ms ctx R mfuel n) f1 (ms_dependsF R.index mfuel k)
          (q.1, aset q.2 k q.1)) ∧
    (v_fkey ctx0 cycR 3 5 [] (str "package1-1.0-0.tar.bz2")).1 = true :=
  ⟨fun _ _ _ _ _ _ => rfl, fun _ _ _ _ _ _ => rfl, by decide⟩


theorem lexLt_irrefl {α : Type} [LinearOrder α] : ∀ l : List α, lexLt l l = false
  | [] => rfl
  | a :: as => by simp [lexLt, lt_irrefl, lexLt_irrefl as]

theorem lexLt_trans {α : Type} [LinearOrder α] :
    ∀ {l1 l2 l3 : List α}, lexLt l1 l2 = true → lexLt l2 l3 = true → lexLt l1 l3 = true
  | [], _ :: _, _ :: _, _, _ => rfl
  | a :: as, b :: bs, c :: cs, h1, h2 => by
    simp only [lexLt, Bool.or_eq_true, Bool.and_eq_true, decide_eq_true_eq] at h1 h2 ⊢
    rcases h1 with h1 | ⟨rfl, h1⟩
    · rcases h2 with h2 | ⟨rfl, h2⟩
      · exact Or.inl (lt_trans h1 h2)
      · exact Or.inl h1
    · rcases h2 with h2 | ⟨rfl, h2⟩
      · exact Or.inl h2
      · exact Or.inr ⟨rfl, lexLt_trans h1 h2⟩

theorem lexLt_asymm {α : Type} [LinearOrder α] {l1 l2 : List α}
    (h : lexLt l1 l2 = true) : lexLt l2 l1 = false := by
  by_contra hc
  rw [Bool.not_eq_false] at hc
  have := lexLt_trans h hc
  rw [lexLt_irrefl] at this
  exact Bool.false_ne_true this

theorem lexLt_connex {α : Type} [LinearOrder α] :
    ∀ {l1 l2 : List α}, lexLt l1 l2 = false → lexLt l2 l1 = false → l1 = l2
  | [], [], _, _ => rfl
  | [], _ :: _, h1, _ => by simp [lexLt] at h1
  | _ :: _, [], _, h2 => by simp [lexLt] at h2
  | a :: as, b :: bs, h1, h2 => by
    simp only [lexLt, Bool.or_eq_false_iff, Bool.and_eq_false_iff,
      decide_eq_false_iff_not] at h1 h2
    obtain ⟨hab, h1r⟩ := h1
    obtain ⟨hba, h2r⟩ := h2
    have heq : a = b := le_antisymm (not_lt.mp hba) (not_lt.mp hab)
    subst heq
    rcases h1r with h1r | h1r
    · exact absurd rfl h1r
    · rcases h2r with h2r | h2r
      · exact absurd rfl h2r
      · rw [lexLt_connex h1r h2r]


theorem pkgKeyLt_iff (a b : Package) :
    pkgKeyLt a b = true ↔
      (lexLt a.norm_version b.norm_version = true ∨
       (a.norm_version = b.norm_version ∧
         (a.build_number < b.build_number ∨
          (a.build_number = b.build_number ∧ lexLt a.build b.build = true)))) := by
  simp [pkgKeyLt]

theorem pkgKeyLt_irrefl (a : Package) : pkgKeyLt a a = false := by
  simp [pkgKeyLt, lexLt_irrefl, lt_irrefl]

theorem pkgKeyLt_trans {a b c : Package} (h1 : pkgKeyLt a b = true)
    (h2 : pkgKeyLt b c = true) : pkgKeyLt a c = true := by
  rw [pkgKeyLt_iff] at h1 h2 ⊢
  rcases h1 with h1 | ⟨e1, h1⟩
  · rcases h2 with h2 | ⟨e2, h2⟩
    · exact Or.inl (lexLt_trans h1 h2)
    · exact Or.inl (e2 ▸ h1)
  · rcases h2 with h2 | ⟨e2, h2⟩
    · exact Or.inl (e1 ▸ h2)
    · refine Or.inr ⟨e1.trans e2, ?_⟩
      rcases h1 with h1 | ⟨f1, h1⟩
      · rcases h2 with h2 | ⟨f2, h2⟩
        · exact Or.inl (lt_trans h1 h2)
        · exact Or.inl (f2 ▸ h1)
      · rcases h2 with h2 | ⟨f2, h2⟩
        · exact Or.inl (f1 ▸ h2)
        · exact Or.inr ⟨f1.trans f2, lexLt_trans h1 h2⟩

theorem pkgKeyLt_asymm {a b : Package} (h : pkgKeyLt a b = true) :
    pkgKeyLt b a = false := by
  by_contra hc
  rw [Bool.not_eq_false] at hc
  have := pkgKeyLt_trans h hc
  rw [pkgKeyLt_irrefl] at this
  exact Bool.false_ne_true this

theorem pkgKeyLt_connex (a b : Package) :
    pkgKeyLt a b = true ∨ pkgKeyLt b a = true ∨
      (a.norm_version, a.build_number, a.build) =
        (b.norm_version, b.build_number, b.build) := by
  by_cases h1 : pkgKeyLt a b = true
  · exact Or.inl h1
  by_cases h2 : pkgKeyLt b a = true
  · exact Or.inr (Or.inl h2)
  refine Or.inr (Or.inr ?_)
  rw [Bool.not_eq_true, pkgKeyLt] at h1 h2
  simp only [Bool.or_eq_false_iff, Bool.and_eq_false_iff,
    decide_eq_false_iff_not] at h1 h2
  obtain ⟨hv1, hr1⟩ := h1
  obtain ⟨hv2, hr2⟩ := h2
  have hv : a.norm_version = b.norm_version := lexLt_connex hv1 hv2
  rcases hr1 with hr1 | ⟨hbn1, hrest1⟩
  · exact absurd hv hr1
  rcases hr2 with hr2 | ⟨hbn2, hrest2⟩
  · exact absurd hv.symm hr2
  have hb : a.build_number = b.build_number := by omega
  rcases hrest1 with hrest1 | hrest1
  · exact absurd hb hrest1
  rcases hrest2 with hrest2 | hrest2
  · exact absurd hb.symm hrest2
  have hbl : a.build = b.build := lexLt_connex hrest1 hrest2
  rw [Prod.mk.injEq, Prod.mk.injEq]
  exact ⟨hv, hb, hbl⟩

/-- Claim C6: for Packages with the same name the four ordering operators
compare the `(norm_version, build_number, build)` tuples and that
comparison is a strict total order (irreflexive, asymmetric, transitive,
connex); for Packages with different names every ordering comparison
raises `TypeError`. -/
theorem c6_package_order (a b c : Package) :
    (a.name = b.name →
      pkgLt a b = Except.ok (pkgKeyLt a b) ∧
      pkgGt a b = Except.ok (pkgKeyLt b a) ∧
      pkgLe a b = Except.ok (!pkgKeyLt b a) ∧
      pkgGe a b = Except.ok (!pkgKeyLt a b)) ∧
    (a.name ≠ b.name →
      pkgLt a b = Except.error () ∧
      pkgGt a b = Except.error () ∧
      pkgLe a b = Except.error () ∧
      pkgGe a b = Except.error ()) ∧
    pkgKeyLt a a = false ∧
    (pkgKeyLt a b = true → pkgKeyLt b a = false) ∧
    (pkgKeyLt a b = true → pkgKeyLt b c = true → pkgKeyLt a c = true) ∧
    (pkgKeyLt a b = true ∨ pkgKeyLt b a = true ∨
      (a.norm_version, a.build_number, a.build) =
        (b.norm_version, b.build_number, b.build)) := by
  refine ⟨fun h => ?_, fun h => ?_, pkgKeyLt_irrefl a,
    fun h => pkgKeyLt_asymm h, fun h1 h2 => pkgKeyLt_trans h1 h2,
    pkgKeyLt_connex a b⟩
  · simp [pkgLt, pkgGt, pkgLe, pkgGe, h, Except.map]
  · simp [pkgLt, pkgGt, pkgLe, pkgGe, h, Ne.symm h, Except.map]

/-- Witness for C6: the comparison succeeds on a same-name pair and
errors on a different-name pair. -/
theorem c6_package_order_witness :
    pkgLt pA1 pA2 = Except.ok (pkgKeyLt pA1 pA2) ∧
    pkgLt pA1 pB = Except.error () :=
  ⟨((c6_package_order pA1 pA2 pB).1 (by decide)).1,
   ((c6_package_order pA1 pB pB).2.1 (by decide)).1⟩



theorem altLoop_len_le (sat : List Str → Option (List Str)) :
    ∀ (fu : Nat) (psol : List Str) (acc : List (List Str)) (nsol : Nat),
      (altLoop sat fu psol acc nsol).2.length ≤ acc.length + (10 - nsol)
  | 0, _, _, _ => Nat.le_add_right _ _
  | fu + 1, psol, acc, nsol => by
    unfold altLoop
    cases sat psol with
    | none => exact Nat.le_add_right _ _
    | some sol =>
      simp only
      split
      · exact Nat.le_add_right _ _
      · next hle =>
        have h := altLoop_len_le sat fu (cleanSol sol) (acc ++ [cleanSol sol]) (nsol + 1)
        simp only [List.length_append, List.length_cons, List.length_nil] at h
        omega

theorem altLoop_len_ge (sat : List Str → Option (List Str)) :
    ∀ (fu : Nat) (psol : List Str) (acc : List (List Str)) (nsol : Nat),
      acc.length ≤ (altLoop sat fu psol acc nsol).2.length
  | 0, _, _, _ => Nat.le_refl _
  | fu + 1, psol, acc, nsol => by
    unfold altLoop
    cases sat psol with
    | none => exact Nat.le_refl _
    | some sol =>
      simp only
      split
      · exact Nat.le_refl _
      · next hle =>
        have h := altLoop_len_ge sat fu (cleanSol sol) (acc ++ [cleanSol sol]) (nsol + 1)
        simp only [List.length_append, List.length_cons, List.length_nil] at h
        omega

theorem altLoop_fuel_stable (sat : List Str → Option (List Str)) :
    ∀ (fu1 fu2 : Nat) (psol : List Str) (acc : List (List Str)) (nsol : Nat),
      nsol ≤ 10 → 11 ≤ fu1 + nsol → 11 ≤ fu2 + nsol →
      altLoop sat fu1 psol acc nsol = altLoop sat fu2 psol acc nsol
  | 0, _, _, _, _, h10, h1, _ => by omega
  | _ + 1, 0, _, _, _, h10, _, h2 => by omega
  | fu1 + 1, fu2 + 1, psol, acc, nsol, h10, h1, h2 => by
    unfold altLoop
    cases sat psol with
    | none => rfl
    | some sol =>
      simp only
      split
      · rfl
      · next hle =>
        exact altLoop_fuel_stable sat fu1 fu2 (cleanSol sol) (acc ++ [cleanSol sol])
          (nsol + 1) (by omega) (by omega) (by omega)

/-- Claim C9 (amended): the alternate-solution enumeration always
terminates, collecting at most 9 alternate solutions in addition to the
first (at most 10 solutions in total; the solution count `nsol` stops the
loop as soon as it exceeds 10, discarding the alternate just found), any
fuel of at least 10 yields the same run as the `while True` loop, and the
differences warning is produced exactly when more than one solution was
found. -/
theorem c9_alternate_enumeration (sat : List Str → Option (List Str))
    (sol : List Str) :
    1 ≤ (solveAlts sat sol).2.length ∧
    (solveAlts sat sol).2.length ≤ 10 ∧
    ((altReport (solveAlts sat sol).1 (solveAlts sat sol).2).isSome ↔
      1 < (solveAlts sat sol).1) ∧
    (∀ fu, 10 ≤ fu →
      altLoop sat fu (cleanSol sol) [cleanSol sol] 1 = solveAlts sat sol) := by
  refine ⟨?_, ?_, ?_, ?_⟩
  · have h := altLoop_len_ge sat 10 (cleanSol sol) [cleanSol sol] 1
    simpa [solveAlts] using h
  · have h := altLoop_len_le sat 10 (cleanSol sol) [cleanSol sol] 1
    simpa [solveAlts] using h
  · unfold altReport
    split
    · next h => simp [h]
    · next h => simp [h]
  · intro fu hfu
    exact altLoop_fuel_stable sat fu 10 (cleanSol sol) [cleanSol sol] 1
      (by omega) (by omega) (by omega)

/-- Counterexample to C9 as stated: with a SAT oracle that always has
another solution available, the enumeration stops after 10 solutions in
total, i.e. only 9 alternates were collected in addition to the first,
not 10 (the count reaches 11 but the 10th alternate found is
discarded). -/
theorem c9_counterexample :
    (solveAlts (fun _ => some [str "a"]) [str "a"]).2.length = 10 ∧
    (solveAlts (fun _ => some [str "a"]) [str "a"]).1 = 11 ∧
    (fun (_ : List Str) => some [str "a"]) [] ≠ none := by
  refine ⟨by decide, by decide, by decide⟩

/-- Witness for C9 at a concrete oracle and fuel. -/
theorem c9_alternate_enumeration_witness :
    1 ≤ (solveAlts (fun _ => none) [str "a"]).2.length ∧
    altLoop (fun _ => none) 11 (cleanSol [str "a"]) [cleanSol [str "a"]] 1 =
      solveAlts (fun _ => none) [str "a"] :=
  ⟨(c9_alternate_enumeration (fun _ => none) [str "a"]).1,
   (c9_alternate_enumeration (fun _ => none) [str "a"]).2.2.2 11 (by decide)⟩



/-- Claim C8 (amended): a `TypeError` raised by the SAT engine during the
consistency check of the existing environment is caught and degraded to
"assume inconsistent" — the run is identical to one where the engine
returned no solution, and in particular returns normally. -/
theorem c8_typeerror_caught (ctx : Ctx) (R : Resolve) (mfuel gfuel : Nat)
    (installed : List Str) (new_specs : List MatchSpec) :
    (bad_installed ctx R mfuel gfuel installed new_specs
        (fun _ => Except.error PyErr.typeError) =
      bad_installed ctx R mfuel gfuel installed new_specs
        (fun _ => Except.ok none)) ∧
    (∃ r, bad_installed ctx R mfuel gfuel installed new_specs
        (fun _ => Except.error PyErr.typeError) = Except.ok r) := by
  constructor
  · rfl
  · unfold bad_installed
    split
    · exact ⟨_, rfl⟩
    · exact ⟨_, rfl⟩

/-- Counterexample to C8 as stated: the handler catches only `TypeError`;
an internal exception of any other class raised by the SAT call
propagates out of `bad_installed`. -/
theorem c8_counterexample :
    bad_installed ctx0 eR 3 3 [str "a-1.0-0.tar.bz2"] []
        (fun _ => Except.error PyErr.otherError) =
      Except.error PyErr.otherError := by
  rfl



theorem sortedB_tail {α : Type} (le : α → α → Bool) (x : α) (xs : List α)
    (h : sortedB le (x :: xs) = true) : sortedB le xs = true := by
  cases xs with
  | nil => rfl
  | cons y ys =>
    simp only [sortedB, Bool.and_eq_true] at h
    exact h.2

theorem sortedB_cons_of {α : Type} (le : α → α → Bool) (x : α) (xs : List α)
    (hs : sortedB le xs = true)
    (hh : ∀ y, xs.head? = some y → le x y = true) :
    sortedB le (x :: xs) = true := by
  cases xs with
  | nil => rfl
  | cons y ys =>
    simp only [sortedB, Bool.and_eq_true]
    exact ⟨hh y rfl, hs⟩

theorem insertLe_head {α : Type} (le : α → α → Bool) (a : α) :
    ∀ l : List α, (insertLe le a l).head? = some a ∨ (insertLe le a l).head? = l.head?
  | [] => Or.inl rfl
  | b :: bs => by
    unfold insertLe
    split
    · exact Or.inl rfl
    · exact Or.inr rfl

theorem sortedB_insertLe {α : Type} (le : α → α → Bool)
    (htot : ∀ a b, le a b = true ∨ le b a = true) (a : α) :
    ∀ l : List α, sortedB le l = true → sortedB le (insertLe le a l) = true
  | [], _ => rfl
  | b :: bs, h => by
    unfold insertLe
    split
    · next hab =>
      simp only [sortedB, Bool.and_eq_true]
      exact ⟨hab, h⟩
    · next hab =>
      have hba : le b a = true := by
        rcases htot a b with ht | ht
        · exact absurd ht hab
        · exact ht
      refine sortedB_cons_of le b _ (sortedB_insertLe le htot a bs (sortedB_tail le b bs h)) ?_
      intro y hy
      rcases insertLe_head le a bs with hh | hh
      · rw [hh] at hy
        injection hy with hy
        rw [hy] at hba
        exact hba
      · rw [hh] at hy
        cases bs with
        | nil => simp at hy
        | cons c cs =>
          injection hy with hy
          subst hy
          simp only [sortedB, Bool.and_eq_true] at h
          exact h.1

theorem sortedB_isortLe {α : Type} (le : α → α → Bool)
    (htot : ∀ a b, le a b = true ∨ le b a = true) :
    ∀ l : List α, sortedB le (isortLe le l) = true
  | [] => rfl
  | a :: as => sortedB_insertLe le htot a _ (sortedB_isortLe le htot as)

theorem strLe_total : ∀ a b : Str, strLe a b = true ∨ strLe b a = true := by
  intro a b
  by_cases h : lexLt b a = true
  · right
    unfold strLe
    rw [lexLt_asymm h]
    rfl
  · left
    unfold strLe
    rw [Bool.not_eq_true] at h
    rw [h]
    rfl

theorem to_filename_some {ms : MatchSpec} {fn : Str}
    (h : to_filename ms = some fn) :
    ms.strictness = 3 ∧ ms.optional = false := by
  unfold to_filename at h
  split at h
  · next hc => exact hc
  · exact absurd h (by simp)


/-- Claim C7: `explicit` returns `None` or a sorted list of filenames; it
returns a list only when every contributing spec is strictness-3 and not
optional, and in the single-spec case only when that filename is in the
index and every dependency's spec also yields a filename. -/
theorem c7_explicit (R : Resolve) (mfuel : Nat) (specs : List MatchSpec)
    (l : List Str) (h : explicit R mfuel specs = some l) :
    sortedB strLe l = true ∧
    (∀ s ∈ contributing specs, s.strictness = 3 ∧ s.optional = false) ∧
    (∀ ms, specs = [ms] →
      ∃ fn, to_filename ms = some fn ∧ (alookup R.index fn).isSome = true ∧
        ∀ d ∈ ms_dependsF R.index mfuel fn, (to_filename d).isSome = true) := by
  rcases specs with _ | ⟨ms, _ | ⟨s2, rest⟩⟩
  · -- specs = []
    simp only [explicit] at h
    split at h
    · exact absurd h (by simp)
    · next hnone =>
      injection h with h
      refine ⟨?_, ?_, ?_⟩
      · rw [← h]
        exact sortedB_isortLe strLe strLe_total _
      · intro s hs
        simp [contributing] at hs
      · intro ms hms
        exact absurd hms (by simp)
  · -- specs = [ms]
    simp only [explicit] at h
    cases hfn : to_filename ms with
    | none =>
      rw [hfn] at h
      exact absurd h (by simp)
    | some fn =>
      rw [hfn] at h
      simp only at h
      split at h
      · exact absurd h (by simp)
      · next hidx =>
        split at h
        · exact absurd h (by simp)
        · next hnone =>
          injection h with h
          refine ⟨?_, ?_, ?_⟩
          · rw [← h]
            exact sortedB_isortLe strLe strLe_total _
          · intro s hs
            simp only [contributing, List.mem_singleton] at hs
            subst hs
            exact to_filename_some hfn
          · intro ms' hms'
            injection hms' with hms' _
            subst hms'
            refine ⟨fn, hfn, ?_, ?_⟩
            · cases halo : alookup R.index fn with
              | none => rw [halo] at hidx; exact absurd rfl hidx
              | some r => rfl
            · intro d hd
              cases hdf : to_filename d with
              | none =>
                exfalso
                apply hnone
                apply List.mem_append_left
                rw [← hdf]
                exact List.mem_map_of_mem to_filename hd
              | some _ => rfl
  · -- specs = ms :: s2 :: rest
    simp only [explicit] at h
    split at h
    · exact absurd h (by simp)
    · next hnone =>
      injection h with h
      refine ⟨?_, ?_, ?_⟩
      · rw [← h]
        exact sortedB_isortLe strLe strLe_total _
      · intro s hs
        simp only [contributing] at hs
        cases hdf : to_filename s with
        | none =>
          exfalso
          apply hnone
          rw [← hdf]
          exact List.mem_map_of_mem to_filename hs
        | some _ => exact to_filename_some hdf
      · intro ms' hms'
        exact absurd hms' (by simp)

/-- Witness for C7: the concrete single-spec run over the two-package
index, whose result is the sorted pair of filenames. -/
theorem c7_explicit_witness :
    sortedB strLe [str "a-1.0-0.tar.bz2", str "b-2.0-0.tar.bz2"] = true ∧
    ((msParse (str "a 1.0 0")).strictness = 3 ∧
      (msParse (str "a 1.0 0")).optional = false) := by
  have h := c7_explicit eR 3 [msParse (str "a 1.0 0")]
    [str "a-1.0-0.tar.bz2", str "b-2.0-0.tar.bz2"] (by decide)
  exact ⟨h.1, h.2.1 (msParse (str "a 1.0 0")) (by simp [contributing])⟩



theorem alookup_append {κ α : Type} [DecidableEq κ] :
    ∀ (m1 m2 : List (κ × α)) (k : κ),
      alookup (m1 ++ m2) k =
        match alookup m1 k with
        | some v => some v
        | none => alookup m2 k
  | [], _, _ => rfl
  | (k1, v1) :: m1, m2, k => by
    simp only [List.cons_append, alookup]
    split
    · rfl
    · exact alookup_append m1 m2 k

theorem alookup_mapReplace {α : Type} (k : Str) (v : α) :
    ∀ (m : List (Str × α)) (w : α), alookup m k = some w →
      alookup (m.map (fun p => if p.1 = k then (k, v) else p)) k = some v
  | [], w, h => by simp [alookup] at h
  | (k1, v1) :: m, w, h => by
    simp only [List.map_cons]
    by_cases hk : k1 = k
    · subst hk
      rw [if_pos rfl]
      simp only [alookup, if_true]
    · rw [if_neg hk]
      simp only [alookup] at h ⊢
      rw [if_neg hk] at h ⊢
      exact alookup_mapReplace k v m w h

theorem alookup_mapReplace_ne {α : Type} (k k' : Str) (v : α) (hne : k' ≠ k) :
    ∀ m : List (Str × α),
      alookup (m.map (fun p => if p.1 = k then (k, v) else p)) k' = alookup m k'
  | [] => rfl
  | (k1, v1) :: m => by
    simp only [List.map_cons]
    by_cases hk : k1 = k
    · subst hk
      rw [if_pos rfl]
      simp only [alookup]
      rw [if_neg (fun hc => hne hc.symm), if_neg (fun hc => hne hc.symm)]
      exact alookup_mapReplace_ne k1 k' v hne m
    · rw [if_neg hk]
      by_cases hk' : k1 = k'
      · subst hk'
        simp only [alookup, if_true]
      · simp only [alookup]
        rw [if_neg hk', if_neg hk']
        exact alookup_mapReplace_ne k k' v hne m

theorem alookup_aset_self {α : Type} (m : List (Str × α)) (k : Str) (v : α) :
    alookup (aset m k v) k = some v := by
  unfold aset
  cases h : alookup m k with
  | some w => exact alookup_mapReplace k v m w h
  | none =>
    rw [alookup_append, h]
    simp [alookup]

theorem alookup_aset_ne {α : Type} (m : List (Str × α)) (k k' : Str) (v : α)
    (hne : k' ≠ k) : alookup (aset m k v) k' = alookup m k' := by
  unfold aset
  cases h : alookup m k with
  | some w => exact alookup_mapReplace_ne k k' v hne m
  | none =>
    rw [alookup_append]
    cases h2 : alookup m k' with
    | some w => rfl
    | none =>
      simp only [alookup]
      rw [if_neg (fun hc => hne hc.symm)]

theorem alookup_eq_none_iff {κ α : Type} [DecidableEq κ] :
    ∀ (m : List (κ × α)) (k : κ), alookup m k = none ↔ k ∉ keysOf m
  | [], k => by simp [alookup, keysOf]
  | (k1, v1) :: m, k => by
    simp only [alookup, keysOf, List.map_cons, List.mem_cons]
    split
    · next h => simp [h]
    · next h =>
      rw [alookup_eq_none_iff m k]
      unfold keysOf
      constructor
      · intro hm hc
        rcases hc with hc | hc
        · exact h hc.symm
        · exact hm hc
      · intro hc hm
        exact hc (Or.inr hm)

theorem alookup_some_mem {κ α : Type} [DecidableEq κ] :
    ∀ (m : List (κ × α)) (k : κ) (v : α), alookup m k = some v → (k, v) ∈ m
  | (k1, v1) :: m, k, v, h => by
    simp only [alookup] at h
    split at h
    · next heq =>
      injection h with h
      subst heq h
      exact List.mem_cons_self _ _
    · exact List.mem_cons_of_mem _ (alookup_some_mem m k v h)

theorem keysOf_aset_nodup {α : Type} (m : List (Str × α)) (k : Str) (v : α)
    (h : (keysOf m).Nodup) : (keysOf (aset m k v)).Nodup := by
  unfold aset
  cases hl : alookup m k with
  | some w =>
    have heq : keysOf (m.map (fun p => if p.1 = k then (k, v) else p)) = keysOf m := by
      unfold keysOf
      rw [List.map_map]
      apply List.map_congr_left
      intro p _
      by_cases hp : p.1 = k
      · simp [hp]
      · simp [hp]
    rw [heq]
    exact h
  | none =>
    unfold keysOf
    rw [List.map_append, List.nodup_append]
    refine ⟨h, List.nodup_singleton k, ?_⟩
    intro x hx hc
    simp only [List.map_cons, List.map_nil, List.mem_singleton] at hc
    subst hc
    exact (alookup_eq_none_iff m x).mp hl hx



theorem alookup_dictInsert :
    ∀ (ds : List MatchSpec) (m : List (Str × MatchSpec)) (k : Str),
      alookup (dictInsert m ds) k = (lastWith ds k).or (alookup m k)
  | [], m, k => by simp [dictInsert, lastWith, List.find?]
  | d :: ds, m, k => by
    show alookup (dictInsert (aset m d.name d) ds) k = _
    rw [alookup_dictInsert ds (aset m d.name d) k]
    have hrev : lastWith (d :: ds) k =
        (lastWith ds k).or (if d.name = k then some d else none) := by
      unfold lastWith
      rw [List.reverse_cons, List.find?_append]
      congr 1
      by_cases hd : d.name = k <;> simp [List.find?, hd]
    rw [hrev]
    cases hl : lastWith ds k with
    | some x => rfl
    | none =>
      simp only [Option.none_or]
      by_cases hd : d.name = k
      · rw [if_pos hd, hd, alookup_aset_self]; rfl
      · rw [if_neg hd, Option.none_or]
        exact alookup_aset_ne m d.name k d (fun hc => hd hc.symm)

theorem keysOf_dictInsert_nodup :
    ∀ (ds : List MatchSpec) (m : List (Str × MatchSpec)),
      (keysOf m).Nodup → (keysOf (dictInsert m ds)).Nodup
  | [], _, h => h
  | d :: ds, m, h =>
    keysOf_dictInsert_nodup ds (aset m d.name d) (keysOf_aset_nodup m d.name d h)

theorem mem_values_iff {α : Type} :
    ∀ (m : List (Str × α)), (keysOf m).Nodup →
      ∀ v : α, (v ∈ m.map Prod.snd ↔ ∃ k, alookup m k = some v)
  | [], _, v => by simp [alookup]
  | (k1, v1) :: m, h, v => by
    simp only [keysOf, List.map_cons, List.nodup_cons] at h
    obtain ⟨hk1, hnd⟩ := h
    simp only [List.map_cons, List.mem_cons]
    constructor
    · intro hv
      rcases hv with hv | hv
      · exact ⟨k1, by simp [alookup, hv]⟩
      · obtain ⟨k, hk⟩ := (mem_values_iff m hnd v).mp hv
        refine ⟨k, ?_⟩
        have hkne : k1 ≠ k := by
          intro hc
          subst hc
          exact hk1 (List.mem_map_of_mem Prod.fst (alookup_some_mem m k1 v hk))
        simp [alookup, hkne]
        exact hk
    · rintro ⟨k, hk⟩
      simp only [alookup] at hk
      split at hk
      · injection hk with hk
        exact Or.inl hk.symm
      · exact Or.inr ((mem_values_iff m hnd v).mpr ⟨k, hk⟩)

theorem find?_name_nodup :
    ∀ (l : List MatchSpec), ((l.map (fun d => d.name)).Nodup) →
      ∀ (d : MatchSpec) (k : Str),
        (l.find? (fun x => decide (x.name = k)) = some d ↔ (d ∈ l ∧ d.name = k))
  | [], _, d, k => by simp
  | h :: t, hnd, d, k => by
    simp only [List.map_cons, List.nodup_cons] at hnd
    obtain ⟨hh, hndt⟩ := hnd
    by_cases hhk : h.name = k
    · rw [List.find?_cons_of_pos _ (by simp [hhk])]
      constructor
      · intro he
        injection he with he
        subst he
        exact ⟨List.mem_cons_self _ _, hhk⟩
      · rintro ⟨hd, hk⟩
        rcases List.mem_cons.mp hd with hd | hd
        · rw [hd]
        · exfalso
          apply hh
          rw [show h.name = d.name from hhk.trans hk.symm]
          exact List.mem_map_of_mem (fun d => d.name) hd
    · rw [List.find?_cons_of_neg _ (by simp [hhk])]
      rw [find?_name_nodup t hndt d k]
      constructor
      · rintro ⟨hd, hk⟩
        exact ⟨List.mem_cons_of_mem _ hd, hk⟩
      · rintro ⟨hd, hk⟩
        rcases List.mem_cons.mp hd with hd | hd
        · exact absurd (hd ▸ hk) hhk
        · exact ⟨hd, hk⟩

theorem lastWith_mem_iff (ds : List MatchSpec)
    (hnd : (ds.map (fun d => d.name)).Nodup) (d : MatchSpec) (k : Str) :
    lastWith ds k = some d ↔ (d ∈ ds ∧ d.name = k) := by
  unfold lastWith
  rw [find?_name_nodup ds.reverse (by rw [List.map_reverse]; exact List.nodup_reverse.mpr hnd) d k]
  rw [List.mem_reverse]

theorem lastWith_eq_none_iff (ds : List MatchSpec) (k : Str) :
    lastWith ds k = none ↔ ∀ d ∈ ds, ¬(d.name = k) := by
  unfold lastWith
  rw [List.find?_eq_none]
  constructor
  · intro h d hd
    have := h d (List.mem_reverse.mpr hd)
    simpa using this
  · intro h d hd
    have := h d (List.mem_reverse.mp hd)
    simpa using this



theorem ms_dependsF_base (idx : Index) (fu : Nat) (f2 : Str) (rc : Rec)
    (hbase : alookup idx f2 = some rc)
    (hbase2 : ¬f2.getLast? = some ']') :
    ms_dependsF idx (fu + 1) f2 = rc.depends.map msParse ++ featSpecsOf rc := by
  simp only [ms_dependsF]
  rw [hbase]
  simp only [if_neg hbase2]
  rfl

theorem ms_dependsF_suffixed (idx : Index) (fu : Nat) (fkey f2 fstrBr : Str)
    (rc : Rec) (wfdStrs : List Str)
    (hrec : alookup idx fkey = some rc)
    (hend : fkey.getLast? = some ']')
    (hsplit : splitAtLast '[' fkey = some (f2, fstrBr))
    (hbase : alookup idx f2 = some rc)
    (hbase2 : ¬f2.getLast? = some ']')
    (hwfd : alookup rc.with_features_depends fstrBr.dropLast = some wfdStrs) :
    ms_dependsF idx (fu + 2) fkey =
      (dictInsert (dictInsert [] (rc.depends.map msParse ++ featSpecsOf rc))
        (wfdStrs.map msParse)).map Prod.snd ++ featSpecsOf rc := by
  rw [ms_dependsF]
  rw [hrec]
  dsimp only
  rw [if_pos hend]
  rw [hsplit]
  dsimp only
  rw [hwfd]
  rw [ms_dependsF_base idx fu f2 rc hbase hbase2]
  have hfold : ∀ m0 : List (Str × MatchSpec),
      wfdStrs.foldl (fun m s => aset m (msParse s).name (msParse s)) m0 =
        dictInsert m0 (wfdStrs.map msParse) := by
    intro m0
    unfold dictInsert
    rw [List.foldl_map]
  simp only [Option.getD_some]
  rw [hfold]
  rfl

/-- Claim C4: for an fkey with a `[fstr]` suffix, `ms_depends` equals the
base record's dependencies merged by package name with the
`with_features_depends[fstr]` entries (an activation entry replaces the
base dependency of the same name), and the result additionally contains a
synthetic `@feat` spec for each tag of the record's `features` field.
Stated as a membership characterization (the Python dict is
insertion-ordered; the `@feat` entries inherited through the base merge
coincide with the appended ones). -/
theorem c4_ms_depends_merge (idx : Index) (fu : Nat) (fkey f2 fstrBr : Str)
    (rc : Rec) (wfdStrs : List Str)
    (hrec : alookup idx fkey = some rc)
    (hend : fkey.getLast? = some ']')
    (hsplit : splitAtLast '[' fkey = some (f2, fstrBr))
    (hbase : alookup idx f2 = some rc)
    (hbase2 : ¬f2.getLast? = some ']')
    (hwfd : alookup rc.with_features_depends fstrBr.dropLast = some wfdStrs)
    (hnd1 : ((rc.depends.map msParse ++ featSpecsOf rc).map (fun d => d.name)).Nodup)
    (hnd2 : ((wfdStrs.map msParse).map (fun d => d.name)).Nodup) :
    ∀ d, d ∈ ms_dependsF idx (fu + 2) fkey ↔
      (d ∈ wfdStrs.map msParse ∨
       (d ∈ rc.depends.map msParse ∧
         d.name ∉ (wfdStrs.map msParse).map (fun d => d.name)) ∨
       d ∈ featSpecsOf rc) := by
  intro d
  rw [ms_dependsF_suffixed idx fu fkey f2 fstrBr rc wfdStrs hrec hend hsplit hbase
    hbase2 hwfd]
  rw [List.mem_append]
  have hkeys : (keysOf (dictInsert (dictInsert []
      (rc.depends.map msParse ++ featSpecsOf rc)) (wfdStrs.map msParse))).Nodup :=
    keysOf_dictInsert_nodup _ _ (keysOf_dictInsert_nodup _ _ (by simp [keysOf]))
  rw [mem_values_iff _ hkeys]
  constructor
  · rintro (⟨k, hk⟩ | hfeat)
    · rw [alookup_dictInsert, alookup_dictInsert] at hk
      cases hw : lastWith (wfdStrs.map msParse) k with
      | some w =>
        rw [hw] at hk
        injection hk with hk
        subst hk
        exact Or.inl (List.mem_reverse.mp (List.mem_of_find?_eq_some hw))
      | none =>
        rw [hw] at hk
        cases hb : lastWith (rc.depends.map msParse ++ featSpecsOf rc) k with
        | none => rw [hb] at hk; simp [alookup] at hk
        | some x =>
          rw [hb] at hk
          injection hk with hk
          subst hk
          have hxmem : x ∈ rc.depends.map msParse ++ featSpecsOf rc :=
            List.mem_reverse.mp (List.mem_of_find?_eq_some hb)
          have hxname : x.name = k := by
            have := List.find?_some hb
            simpa using this
          have hnotw : x.name ∉ (wfdStrs.map msParse).map (fun d => d.name) := by
            intro hc
            obtain ⟨w, hwmem, hwname⟩ := List.mem_map.mp hc
            have := (lastWith_eq_none_iff (wfdStrs.map msParse) k).mp hw w hwmem
            exact this (hwname.trans hxname)
          rcases List.mem_append.mp hxmem with hx | hx
          · exact Or.inr (Or.inl ⟨hx, hnotw⟩)
          · exact Or.inr (Or.inr hx)
    · exact Or.inr (Or.inr hfeat)
  · rintro (hw | ⟨hbm, hnw⟩ | hfeat)
    · refine Or.inl ⟨d.name, ?_⟩
      rw [alookup_dictInsert]
      rw [(lastWith_mem_iff (wfdStrs.map msParse) hnd2 d d.name).mpr ⟨hw, rfl⟩]
      rfl
    · refine Or.inl ⟨d.name, ?_⟩
      rw [alookup_dictInsert, alookup_dictInsert]
      have hwnone : lastWith (wfdStrs.map msParse) d.name = none := by
        rw [lastWith_eq_none_iff]
        intro w hwm hc
        exact hnw (hc ▸ List.mem_map_of_mem (fun d => d.name) hwm)
      rw [hwnone]
      rw [(lastWith_mem_iff (rc.depends.map msParse ++ featSpecsOf rc) hnd1 d
        d.name).mpr ⟨List.mem_append_left _ hbm, rfl⟩]
      rfl
    · exact Or.inr hfeat

/-- Witness for C4: in the concrete feature index, the activation entry
`mkl-rt` is a dependency of the virtual fkey. -/
theorem c4_ms_depends_merge_witness :
    msParse (str "mkl-rt") ∈ ms_dependsF fIdx 5 (str "numpy-1.7.1-py27_0.tar.bz2[mkl]") :=
  (c4_ms_depends_merge fIdx 3 (str "numpy-1.7.1-py27_0.tar.bz2[mkl]")
    (str "numpy-1.7.1-py27_0.tar.bz2") (str "mkl]") recN
    [str "mkl-rt", str "python 2.7*"]
    (by decide) (by decide) (by decide) (by decide) (by decide) (by decide)
    (by decide) (by decide) (msParse (str "mkl-rt"))).mpr
    (Or.inl (by decide))



theorem alookup_mapAppendV (k : Str) (v : Str) :
    ∀ (m : List (Str × List Str)) (gl : List Str), alookup m k = some gl →
      alookup (m.map (fun p => if p.1 = k then (p.1, p.2 ++ [v]) else p)) k
        = some (gl ++ [v])
  | [], gl, h => by simp [alookup] at h
  | (k1, v1) :: m, gl, h => by
    simp only [List.map_cons]
    by_cases hk : k1 = k
    · subst hk
      simp only [alookup, if_pos rfl] at h
      injection h with h
      subst h
      rw [if_pos rfl]
      simp only [alookup, if_true]
    · rw [if_neg hk]
      simp only [alookup] at h ⊢
      rw [if_neg hk] at h ⊢
      exact alookup_mapAppendV k v m gl h

theorem alookup_mapAppendV_ne (k k' : Str) (v : Str) (hne : k' ≠ k) :
    ∀ m : List (Str × List Str),
      alookup (m.map (fun p => if p.1 = k then (p.1, p.2 ++ [v]) else p)) k'
        = alookup m k'
  | [] => rfl
  | (k1, v1) :: m => by
    simp only [List.map_cons]
    by_cases hk : k1 = k
    · subst hk
      rw [if_pos rfl]
      simp only [alookup]
      rw [if_neg (fun hc => hne hc.symm), if_neg (fun hc => hne hc.symm)]
      exact alookup_mapAppendV_ne k1 k' v hne m
    · rw [if_neg hk]
      by_cases hk' : k1 = k'
      · subst hk'
        simp only [alookup, if_true]
      · simp only [alookup]
        rw [if_neg hk', if_neg hk']
        exact alookup_mapAppendV_ne k k' v hne m

theorem alookup_aappend_self (m : List (Str × List Str)) (k : Str) (v : Str) :
    alookup (aappend m k v) k = some (((alookup m k).getD []) ++ [v]) := by
  unfold aappend
  cases h : alookup m k with
  | none =>
    rw [alookup_append, h]
    simp [alookup]
  | some gl =>
    simp only [Option.getD_some]
    exact alookup_mapAppendV k v m gl h

theorem alookup_aappend_ne (m : List (Str × List Str)) (k k' : Str) (v : Str)
    (hne : k' ≠ k) : alookup (aappend m k v) k' = alookup m k' := by
  unfold aappend
  cases h : alookup m k with
  | none =>
    rw [alookup_append]
    cases h2 : alookup m k' with
    | some w => rfl
    | none =>
      simp only [alookup]
      rw [if_neg (fun hc => hne hc.symm)]
  | some gl => exact alookup_mapAppendV_ne k k' v hne m

theorem mem_groups_foldl :
    ∀ (idx : Index) (acc : List (Str × List Str)) (k : Str) (r : Rec),
      ((k, r) ∈ idx ∨ (∃ gl0, alookup acc r.name = some gl0 ∧ k ∈ gl0)) →
      ∃ gl, alookup (idx.foldl (fun g kv => aappend g kv.2.name kv.1) acc) r.name
          = some gl ∧ k ∈ gl
  | [], acc, k, r, h => by
    rcases h with h | h
    · exact absurd h (List.not_mem_nil _)
    · exact h
  | (k1, r1) :: idx, acc, k, r, h => by
    show ∃ gl, alookup (idx.foldl (fun g kv => aappend g kv.2.name kv.1)
      (aappend acc r1.name k1)) r.name = some gl ∧ k ∈ gl
    apply mem_groups_foldl idx (aappend acc r1.name k1) k r
    rcases h with h | ⟨gl0, hgl, hkgl⟩
    · rcases List.mem_cons.mp h with h | h
      · injection h with h1 h2
        subst h1 h2
        right
        refine ⟨((alookup acc r.name).getD []) ++ [k], ?_, ?_⟩
        · exact alookup_aappend_self acc r.name k
        · exact List.mem_append_right _ (List.mem_singleton.mpr rfl)
      · exact Or.inl h
    · right
      by_cases hn : r.name = r1.name
      · refine ⟨((alookup acc r1.name).getD []) ++ [k1], ?_, ?_⟩
        · rw [hn]
          exact alookup_aappend_self acc r1.name k1
        · rw [hn] at hgl
          rw [hgl]
          exact List.mem_append_left _ hkgl
      · refine ⟨gl0, ?_, hkgl⟩
        rw [alookup_aappend_ne acc r1.name r.name k1 hn]
        exact hgl

theorem mem_groupsOf (idx : Index) (k : Str) (r : Rec) (h : (k, r) ∈ idx) :
    ∃ gl, alookup (groupsOf idx) r.name = some gl ∧ k ∈ gl :=
  mem_groups_foldl idx [] k r (Or.inl h)

theorem mem_insertLe {α : Type} (le : α → α → Bool) (a x : α) :
    ∀ l : List α, x ∈ insertLe le a l ↔ x = a ∨ x ∈ l
  | [] => by simp [insertLe]
  | b :: bs => by
    unfold insertLe
    split
    · simp [List.mem_cons]
    · rw [List.mem_cons, mem_insertLe le a x bs, List.mem_cons]
      tauto

theorem mem_isortLe {α : Type} (le : α → α → Bool) (x : α) :
    ∀ l : List α, x ∈ isortLe le l ↔ x ∈ l
  | [] => Iff.rfl
  | a :: as => by
    unfold isortLe
    rw [mem_insertLe, mem_isortLe le x as, List.mem_cons]

theorem alookup_map_sort (le : Str → Str → Bool) :
    ∀ (m : List (Str × List Str)) (k : Str),
      alookup (m.map (fun g => (g.1, isortLe le g.2))) k =
        (alookup m k).map (isortLe le)
  | [], _ => rfl
  | (k1, v1) :: m, k => by
    simp only [List.map_cons, alookup]
    by_cases hk : k1 = k
    · rw [if_pos hk, if_pos hk]
      rfl
    · rw [if_neg hk, if_neg hk]
      exact alookup_map_sort le m k

theorem countP_two (p : Str → Bool) :
    ∀ (l : List Str) (f g : Str), f ∈ l → g ∈ l → f ≠ g →
      p f = true → p g = true → 2 ≤ l.countP p
  | [], f, g, hf, _, _, _, _ => absurd hf (List.not_mem_nil _)
  | a :: l, f, g, hf, hg, hfg, hpf, hpg => by
    rw [List.countP_cons]
    rcases List.mem_cons.mp hf with hf1 | hf1
    · subst hf1
      have hgl : g ∈ l := by
        rcases List.mem_cons.mp hg with hg1 | hg1
        · exact absurd hg1.symm hfg
        · exact hg1
      have h1 : 0 < l.countP p := List.countP_pos_iff.mpr ⟨g, hgl, hpg⟩
      rw [if_pos hpf]
      omega
    · rcases List.mem_cons.mp hg with hg1 | hg1
      · subst hg1
        have h1 : 0 < l.countP p := List.countP_pos_iff.mpr ⟨f, hf1, hpf⟩
        rw [if_pos hpg]
        omega
      · have := countP_two p l f g hf1 hg1 hfg hpf hpg
        omega

/-- Claim C1: a truth assignment satisfying every constraint emitted by
`gen_clauses` over the sorted processed resolver (as `solve` builds it)
selects at most one fkey per package name: two distinct selected fkeys
have records with different names.  Consequently every fkey list `solve`
returns (selected fkeys of a SAT model, cleaned and sorted) contains at
most one entry per name. -/
theorem c1_at_most_one_per_name (ctx : Ctx) (index : Index) (mfuel : Nat)
    (m : Str → Bool)
    (hsat : ∀ c ∈ gen_clauses (mkResolve ctx index true true) mfuel,
      satClause ctx (mkResolve ctx index true true) m c)
    (f g : Str) (rf rg : Rec)
    (hf : (f, rf) ∈ index) (hg : (g, rg) ∈ index)
    (hmf : m f = true) (hmg : m g = true) (hfg : f ≠ g) :
    rf.name ≠ rg.name := by
  intro hname
  obtain ⟨gl, hgl, hfgl⟩ := mem_groupsOf index f rf hf
  obtain ⟨gl', hgl', hggl⟩ := mem_groupsOf index g rg hg
  rw [hname] at hgl
  rw [hgl] at hgl'
  injection hgl' with hgl'
  subst hgl'
  set R := mkResolve ctx index true true with hR
  have hgroups : R.groups = (groupsOf index).map
      (fun g => (g.1, isortLe (fun a b => !(vkeyLt ctx index a b)) g.2)) := rfl
  have hmem : (rg.name, isortLe (fun a b => !(vkeyLt ctx index a b)) gl) ∈ R.groups := by
    rw [hgroups]
    have := alookup_some_mem (groupsOf index) rg.name gl hgl
    exact List.mem_map_of_mem _ this
  have hclause : SClause.atMostOne
      (isortLe (fun a b => !(vkeyLt ctx index a b)) gl) ∈ gen_clauses R mfuel := by
    unfold gen_clauses
    apply List.mem_append_left
    exact List.mem_map_of_mem _ hmem
  have hle := hsat _ hclause
  unfold satClause at hle
  have h2 : 2 ≤ (isortLe (fun a b => !(vkeyLt ctx index a b)) gl).countP m := by
    apply countP_two m _ f g
    · exact (mem_isortLe _ f gl).mpr hfgl
    · exact (mem_isortLe _ g gl).mpr hggl
    · exact hfg
    · exact hmf
    · exact hmg
  omega

/-- Witness for C1: over the concrete two-package index, a model
selecting both fkeys satisfies every emitted constraint, and the theorem
yields that their record names differ. -/
theorem c1_at_most_one_per_name_witness : recA.name ≠ recB.name :=
  c1_at_most_one_per_name ctx0 eIdx 3
    (fun k => k = str "a-1.0-0.tar.bz2" ∨ k = str "b-2.0-0.tar.bz2")
    (by decide)
    (str "a-1.0-0.tar.bz2") (str "b-2.0-0.tar.bz2") recA recB
    (by decide) (by decide) (by decide) (by decide) (by decide)


end Conda
